import Mathlib

/-!
Verification of the Kyakuhon Text Formatter core pipeline
(`text_preprocessor`, `add_attribute_to_line`, `fix_line_breaks` from
`ktf/ktf.py`) against its natural-language specification.

Strings are modelled as lists of Unicode scalar values (`List Char`),
matching Python's view of `str` as a sequence of code points.
-/

/-- A Python string: a sequence of Unicode code points. -/
abbrev Str := List Char

/-- The `LineAttribute` enum of the source: the six screenplay categories.
HASHIRA = Slugline, TOGAKI = Action, SERIFU = Dialogue,
BUNRITAI = Transition, MIDASHI = Heading, KAIGYO = Blank. -/
inductive LineAttribute where
  | HASHIRA
  | TOGAKI
  | SERIFU
  | BUNRITAI
  | MIDASHI
  | KAIGYO
deriving DecidableEq, Repr, Fintype

open LineAttribute

/-- The set of characters Python's `str.strip()` (and `\s` on `str`
patterns) treats as whitespace: the characters for which
`str.isspace()` is true in CPython. -/
def pyWsChars : List Char :=
  ['\t', '\n', '\x0b', '\x0c', '\r', '\x1c', '\x1d', '\x1e', '\x1f', ' ',
   '\x85', '\xa0', ' ',
   ' ', ' ', ' ', ' ', ' ', ' ', ' ',
   ' ', ' ', ' ', ' ',
   ' ', ' ', ' ', ' ', '　']

/-- Whether a character is Python whitespace. -/
def isPyWhitespace (c : Char) : Bool := pyWsChars.contains c

/-- Python `s.strip()`: remove leading and trailing whitespace. -/
def pyStrip (s : Str) : Str :=
  ((s.dropWhile isPyWhitespace).reverse.dropWhile isPyWhitespace).reverse

/-- `text_preprocessor` (ktf.py lines 96-101): strip every line. -/
def text_preprocessor (lines : List Str) : List Str :=
  lines.map pyStrip

/-- Python `$` semantics (no MULTILINE): the pattern body must match up to
the end of the string, or up to a single newline that ends the string.
Characters other than a lone trailing newline are untouched. -/
def dropTrailingNl (s : Str) : Str :=
  match s.getLast? with
  | some '\n' => s.dropLast
  | _ => s

/-- `re.match` of `^[○□].+` (the 柱 / Slugline rule): the first character
is ○ or □ and is followed by at least one non-newline character.
(`re.match` anchors only at the start; `.` never matches a newline.) -/
def hashira : Str → Bool
  | c :: d :: _ => (c = '○' || c = '□') && !(d = '\n')
  | _ => false

/-- Body of `^.*「.+」$` on a string with no trailing newline already
removed: every character is non-newline, the string ends in 」, and some
「 occurs at least two positions before the end (so the `.+` between the
quotes is non-empty).  The leading `.*` permits an arbitrary run of
non-newline characters before the 「. -/
def serifuBody (t : Str) : Bool :=
  t.all (fun c => !(c = '\n')) && (t.getLast? == some '」')
    && t.dropLast.dropLast.contains '「'

/-- `re.match` of `^.*「.+」$` (the セリフ / Dialogue rule). -/
def serifu (s : Str) : Bool := serifuBody (dropTrailingNl s)

/-- Body of `^×\s+×\s+×$`: a literal ×, one or more whitespace
characters, a ×, one or more whitespace characters, and a final ×. -/
def bunritaiBody (t : Str) : Bool :=
  match t with
  | '×' :: r1 =>
    match r1.span isPyWhitespace with
    | ([], _) => false
    | (_ :: _, '×' :: r3) =>
      match r3.span isPyWhitespace with
      | ([], _) => false
      | (_ :: _, r4) => r4 == ['×']
    | (_ :: _, _) => false
  | _ => false

/-- `re.match` of `^×\s+×\s+×$` (the 分離帯 / Transition rule). -/
def bunritai (s : Str) : Bool := bunritaiBody (dropTrailingNl s)

/-- Body of `^【.+】$`: the string is 【, then one or more non-newline
characters, then 】. -/
def midashiBody (t : Str) : Bool :=
  decide (3 ≤ t.length) && (t.head? == some '【') && (t.getLast? == some '】')
    && t.all (fun c => !(c = '\n'))

/-- `re.match` of `^【.+】$` (the 見出し / Heading rule). -/
def midashi (s : Str) : Bool := midashiBody (dropTrailingNl s)

/-- The `if`/`elif` chain of `add_attribute_to_line` (ktf.py lines
117-130) applied to one line: first matching rule wins; the Transition
branch stores the line with a fullwidth space prepended. -/
def tagLine (l : Str) : Str × LineAttribute :=
  if hashira l then (l, HASHIRA)
  else if serifu l then (l, SERIFU)
  else if bunritai l then ('　' :: l, BUNRITAI)
  else if midashi l then (l, MIDASHI)
  else if l = [] then (l, KAIGYO)
  else (l, TOGAKI)

/-- `add_attribute_to_line` (ktf.py lines 104-134): the loop appends one
tagged entry per input line, in order. -/
def add_attribute_to_line (lines : List Str) : List (Str × LineAttribute) :=
  lines.map tagLine

/-- The synthetic entry `['', LineAttribute.KAIGYO]` appended by
`fix_line_breaks`. -/
def blankTL : Str × LineAttribute := ([], KAIGYO)

/-- The insertion decision of the `fix_line_breaks` loop body (ktf.py
lines 146-153): when the running context equals the current category a
blank is inserted only for a repeated HASHIRA; when it differs a blank is
inserted only if neither side is KAIGYO. -/
def insBetween (a b : LineAttribute) : List (Str × LineAttribute) :=
  if a = b then (if b = HASHIRA then [blankTL] else [])
  else (if b ≠ KAIGYO ∧ a ≠ KAIGYO then [blankTL] else [])

/-- The `fix_line_breaks` loop (ktf.py lines 144-157): for each entry,
emit the insertion decided against the running context, then the entry
itself, then continue with the entry's category as the new context. -/
def fixGo : LineAttribute → List (Str × LineAttribute) → List (Str × LineAttribute)
  | _, [] => []
  | ctx, lwa :: rest => insBetween ctx lwa.2 ++ lwa :: fixGo lwa.2 rest

/-- `fix_line_breaks` (ktf.py lines 137-159).  The first statement reads
`line_with_attributes[0][1]`, which raises `IndexError` on an empty list;
this is modelled by returning `none`. -/
def fix_line_breaks (l : List (Str × LineAttribute)) :
    Option (List (Str × LineAttribute)) :=
  match l with
  | [] => none
  | e :: _ => some (fixGo e.2 l)

/-- The core pipeline as called by `ktf()` (ktf.py lines 229-231):
preprocess, classify, then normalize, with no guard between the stages. -/
def ktfCore (lines : List Str) : Option (List (Str × LineAttribute)) :=
  fix_line_breaks (add_attribute_to_line (text_preprocessor lines))

/-- `fixGo` with each emitted entry flagged: `true` marks a synthetic
blank inserted by the normalizer, `false` marks an original entry. -/
def fixGoF : LineAttribute → List (Str × LineAttribute) →
    List ((Str × LineAttribute) × Bool)
  | _, [] => []
  | ctx, lwa :: rest =>
    (insBetween ctx lwa.2).map (fun x => (x, true)) ++
      (lwa, false) :: fixGoF lwa.2 rest

/-- The per-adjacent-pair view of normalization: between every adjacent
pair of original entries, exactly the entries of `insBetween` appear. -/
def chainIns : (Str × LineAttribute) → List (Str × LineAttribute) →
    List (Str × LineAttribute)
  | _, [] => []
  | a, b :: r => insBetween a.2 b.2 ++ b :: chainIns b r

/-- A classification rule, as the specification describes one: a
predicate, the category it assigns, and the text transformation it
applies to the stored line. -/
abbrev ClassRule := (Str → Bool) × LineAttribute × (Str → Str)

/-- The specification's ordered rule list: Slugline, Dialogue,
Transition, Heading, Blank; Action is the fallback. -/
def specRules : List ClassRule :=
  [(hashira, HASHIRA, id),
   (serifu, SERIFU, id),
   (bunritai, BUNRITAI, fun l => '　' :: l),
   (midashi, MIDASHI, id),
   (fun l => l.isEmpty, KAIGYO, id)]

/-- First-match evaluation of an ordered rule list, with the Action
fallback when no rule matches. -/
def applyRules : List ClassRule → Str → Str × LineAttribute
  | [], l => (l, TOGAKI)
  | (p, a, f) :: rs, l => if p l then (f l, a) else applyRules rs l

/-- An adjacent pair of categories is acceptable after normalization:
equal, or at least one side is a Blank. -/
def catAdjOK (a b : LineAttribute) : Prop :=
  a = b ∨ a = KAIGYO ∨ b = KAIGYO

instance (a b : LineAttribute) : Decidable (catAdjOK a b) :=
  inferInstanceAs (Decidable (a = b ∨ a = KAIGYO ∨ b = KAIGYO))

/- ------------------------------------------------------------------ -/
/- Helper lemmas                                                      -/
/- ------------------------------------------------------------------ -/

theorem insBetween_cases (a b : LineAttribute) :
    insBetween a b = [] ∨ insBetween a b = [blankTL] := by
  revert a b
  decide

theorem insBetween_self (a : LineAttribute) :
    insBetween a a = if a = HASHIRA then [blankTL] else [] := by
  revert a
  decide

theorem insBetween_nil_imp (a b : LineAttribute) :
    insBetween a b = [] → catAdjOK a b := by
  revert a b
  decide

theorem fixGo_eq_chainIns (t : List (Str × LineAttribute))
    (a : Str × LineAttribute) : fixGo a.2 t = chainIns a t := by
  induction t generalizing a with
  | nil => rfl
  | cons b r ih => simp only [fixGo, chainIns, ih b]

theorem fixGoF_fst (l : List (Str × LineAttribute)) (ctx : LineAttribute) :
    (fixGoF ctx l).map Prod.fst = fixGo ctx l := by
  induction l generalizing ctx with
  | nil => rfl
  | cons b r ih =>
    rcases insBetween_cases ctx b.2 with h | h <;>
      simp [fixGoF, fixGo, h, ih b.2]

theorem fixGoF_orig (l : List (Str × LineAttribute)) (ctx : LineAttribute) :
    ((fixGoF ctx l).filter (fun x => !x.2)).map Prod.fst = l := by
  induction l generalizing ctx with
  | nil => rfl
  | cons b r ih =>
    rcases insBetween_cases ctx b.2 with h | h <;>
      simp [fixGoF, h, List.filter_append, ih b.2]

theorem fixGo_le_length (l : List (Str × LineAttribute))
    (ctx : LineAttribute) : l.length ≤ (fixGo ctx l).length := by
  induction l generalizing ctx with
  | nil => simp [fixGo]
  | cons b r ih =>
    have hb := ih b.2
    rcases insBetween_cases ctx b.2 with h | h <;> simp [fixGo, h] <;> omega

theorem fixGoF_synth (l : List (Str × LineAttribute)) (ctx : LineAttribute) :
    (fixGoF ctx l).all (fun x => !x.2 || decide (x.1 = blankTL)) = true := by
  induction l generalizing ctx with
  | nil => rfl
  | cons b r ih =>
    rcases insBetween_cases ctx b.2 with h | h <;>
      simp [fixGoF, h, ih b.2]

theorem fixGo_chain (l : List (Str × LineAttribute)) (ctx : LineAttribute) :
    List.Chain catAdjOK ctx ((fixGo ctx l).map Prod.snd) := by
  induction l generalizing ctx with
  | nil => exact List.Chain.nil
  | cons b r ih =>
    rcases insBetween_cases ctx b.2 with h | h
    · simpa [fixGo, h] using List.Chain.cons (insBetween_nil_imp _ _ h) (ih b.2)
    · have h1 : catAdjOK ctx KAIGYO := Or.inr (Or.inr rfl)
      have h2 : catAdjOK KAIGYO b.2 := Or.inr (Or.inl rfl)
      simpa [fixGo, h, blankTL] using
        List.Chain.cons h1 (List.Chain.cons h2 (ih b.2))

theorem chain'_of_chain {α : Type} {R : α → α → Prop} {a : α} {l : List α}
    (h : List.Chain R a l) : List.Chain' R l := by
  cases l with
  | nil => exact List.chain'_nil
  | cons b r => exact (List.chain_cons.mp h).2

theorem take_one_append {α : Type} (x y : List α) (hx : x ≠ []) :
    (x ++ y).take 1 = x.take 1 := by
  cases x with
  | nil => exact absurd rfl hx
  | cons a r => simp

theorem dropWhile_head_not (p : Char → Bool) (l : Str) :
    ((l.dropWhile p).take 1).all (fun c => !(p c)) = true := by
  induction l with
  | nil => rfl
  | cons a r ih =>
    by_cases h : p a
    · simpa [List.dropWhile_cons, h] using ih
    · simp [List.dropWhile_cons, h]

theorem dropWhile_eq_self_of_head (p : Char → Bool) (l : Str)
    (h : (l.take 1).all (fun c => !(p c)) = true) : l.dropWhile p = l := by
  cases l with
  | nil => rfl
  | cons a r =>
    simp at h
    simp [List.dropWhile_cons, h]

theorem pyStrip_decomp (s : Str) :
    ∃ p q : Str, s = p ++ pyStrip s ++ q
      ∧ p.all isPyWhitespace = true ∧ q.all isPyWhitespace = true := by
  refine ⟨s.takeWhile isPyWhitespace,
    ((s.dropWhile isPyWhitespace).reverse.takeWhile isPyWhitespace).reverse,
    ?_, ?_, ?_⟩
  · have h1 := List.takeWhile_append_dropWhile (p := isPyWhitespace) (l := s)
    have h2 := List.takeWhile_append_dropWhile (p := isPyWhitespace)
      (l := (s.dropWhile isPyWhitespace).reverse)
    have h3 : s.dropWhile isPyWhitespace =
        ((s.dropWhile isPyWhitespace).reverse.dropWhile isPyWhitespace).reverse
          ++ ((s.dropWhile isPyWhitespace).reverse.takeWhile isPyWhitespace).reverse := by
      have h4 := congrArg List.reverse h2
      rw [List.reverse_append, List.reverse_reverse] at h4
      exact h4.symm
    conv_lhs => rw [← h1]
    rw [List.append_assoc]
    exact congrArg (fun x => s.takeWhile isPyWhitespace ++ x) h3
  · simp only [List.all_eq_true]
    intro x hx
    simpa using List.mem_takeWhile_imp hx
  · simp only [List.all_reverse, List.all_eq_true]
    intro x hx
    simpa using List.mem_takeWhile_imp hx

theorem pyStrip_head_not_ws (s : Str) :
    ((pyStrip s).take 1).all (fun c => !(isPyWhitespace c)) = true := by
  by_cases h : pyStrip s = []
  · simp [h]
  · have h2 := List.takeWhile_append_dropWhile (p := isPyWhitespace)
      (l := (s.dropWhile isPyWhitespace).reverse)
    have h3 : s.dropWhile isPyWhitespace =
        pyStrip s
          ++ ((s.dropWhile isPyWhitespace).reverse.takeWhile isPyWhitespace).reverse := by
      have h4 := congrArg List.reverse h2
      rw [List.reverse_append, List.reverse_reverse] at h4
      exact h4.symm
    have h5 : (pyStrip s).take 1 = (s.dropWhile isPyWhitespace).take 1 := by
      rw [h3, take_one_append _ _ h]
    rw [h5]
    exact dropWhile_head_not _ _

theorem pyStrip_last_not_ws (s : Str) :
    ((pyStrip s).reverse.take 1).all (fun c => !(isPyWhitespace c)) = true := by
  simpa [pyStrip] using
    dropWhile_head_not isPyWhitespace (s.dropWhile isPyWhitespace).reverse

theorem pyStrip_idem (s : Str) : pyStrip (pyStrip s) = pyStrip s := by
  have h1 : (pyStrip s).dropWhile isPyWhitespace = pyStrip s :=
    dropWhile_eq_self_of_head _ _ (pyStrip_head_not_ws s)
  have h2 : (pyStrip s).reverse.dropWhile isPyWhitespace = (pyStrip s).reverse :=
    dropWhile_eq_self_of_head _ _ (pyStrip_last_not_ws s)
  rw [show pyStrip (pyStrip s) =
      (((pyStrip s).dropWhile isPyWhitespace).reverse.dropWhile
        isPyWhitespace).reverse from rfl]
  rw [h1, h2, List.reverse_reverse]

theorem pyStrip_eq_nil_iff (s : Str) :
    pyStrip s = [] ↔ s.all isPyWhitespace = true := by
  constructor
  · intro h
    obtain ⟨p, q, hs, hp, hq⟩ := pyStrip_decomp s
    rw [h] at hs
    subst hs
    simp_all
  · intro h
    have h1 : s.dropWhile isPyWhitespace = [] := by
      rw [List.dropWhile_eq_nil_iff]
      intro x hx
      exact (List.all_eq_true.mp h) x hx
    simp [pyStrip, h1]

theorem dropTrailingNl_eq_self (s : Str) (h : '\n' ∉ s) :
    dropTrailingNl s = s := by
  unfold dropTrailingNl
  split
  · next heq =>
    exact absurd (by rw [← List.dropLast_append_getLast? '\n' heq]; simp) h
  · rfl

theorem serifuBody_iff (t : Str) (h : '\n' ∉ t) :
    serifuBody t = true ↔
      ∃ p m : Str, t = p ++ '「' :: (m ++ ['」']) ∧ m ≠ [] := by
  constructor
  · intro hb
    unfold serifuBody at hb
    simp only [Bool.and_eq_true, beq_iff_eq, List.all_eq_true] at hb
    obtain ⟨⟨hall, hlast⟩, hmem⟩ := hb
    have hmem2 : '「' ∈ t.dropLast.dropLast := by
      simpa using hmem
    have ht : t.dropLast ++ ['」'] = t :=
      List.dropLast_append_getLast? '」' hlast
    have hu2 : t.dropLast ≠ [] := by
      intro e
      rw [e] at hmem2
      simp at hmem2
    obtain ⟨w, c, hwc⟩ := (t.dropLast.eq_nil_or_concat).resolve_left hu2
    simp only [List.concat_eq_append] at hwc
    have hw : '「' ∈ w := by
      have := hmem2
      rw [hwc, List.dropLast_concat] at this
      exact this
    obtain ⟨p, r, hpr⟩ := List.append_of_mem hw
    refine ⟨p, r ++ [c], ?_, by simp⟩
    rw [← ht, hwc, hpr]
    simp
  · rintro ⟨p, m, rfl, hm⟩
    obtain ⟨m', a, hm2⟩ := (m.eq_nil_or_concat).resolve_left hm
    subst hm2
    simp only [List.concat_eq_append] at h ⊢
    have e1 : p ++ '「' :: ((m' ++ [a]) ++ ['」']) =
        ((p ++ '「' :: m') ++ [a]) ++ ['」'] := by simp
    rw [e1] at h ⊢
    unfold serifuBody
    simp only [List.getLast?_concat, List.dropLast_concat, Bool.and_eq_true,
      beq_iff_eq, List.all_eq_true]
    refine ⟨⟨?_, trivial⟩, ?_⟩
    · intro x hx
      have hxn : x ≠ '\n' := fun e => h (e ▸ hx)
      simp [hxn]
    · simp

theorem tagLine_serifu_iff (s : Str) :
    (tagLine s).2 = SERIFU ↔ (hashira s = false ∧ serifu s = true) := by
  unfold tagLine
  split_ifs <;> simp_all

/- ------------------------------------------------------------------ -/
/- Claim theorems                                                     -/
/- ------------------------------------------------------------------ -/

/-- C1 (counterexample): contrary to the claim, when the first entry of
the input sequence is a Slugline the Break Normalizer does insert a
Blank entry before it: on the single-entry input `[("○A", HASHIRA)]` the
output begins with the synthetic blank entry. -/
theorem c1_counterexample :
    fix_line_breaks [(['○', 'A'], HASHIRA)] =
      some (blankTL :: [(['○', 'A'], HASHIRA)]) ∧ blankTL.2 = KAIGYO := by
  decide

/-- C1 (amended): the running previous category is seeded with the first
entry's own category, so the category-change rule never fires before the
first entry; but when the first entry's category is Slugline the
repeated-Slugline rule fires against the seeded context, and exactly one
Blank entry is inserted before the first entry. -/
theorem c1_amended (e : Str × LineAttribute)
    (t : List (Str × LineAttribute)) :
    fix_line_breaks (e :: t) =
      some ((if e.2 = HASHIRA then [blankTL] else []) ++ e :: chainIns e t) := by
  show some (fixGo e.2 (e :: t)) = _
  simp only [fixGo, insBetween_self, fixGo_eq_chainIns]

/-- C3: the normalizer output is the seeded insertion, then the first
entry, then the remaining entries interleaved with the per-pair
insertions, and for all categories a b the inserted material between an
adjacent original pair is exactly one synthetic empty-string Blank entry
when (a = b = Slugline) or (a ≠ b and neither side is Blank), and
nothing otherwise. -/
theorem c3_pairwise_insertion (e : Str × LineAttribute)
    (t : List (Str × LineAttribute)) (a b : LineAttribute) :
    fix_line_breaks (e :: t) = some (insBetween e.2 e.2 ++ e :: chainIns e t)
    ∧ insBetween a b =
        (if (a = b ∧ b = HASHIRA) ∨ (a ≠ b ∧ a ≠ KAIGYO ∧ b ≠ KAIGYO)
         then [blankTL] else [])
    ∧ blankTL = (([] : Str), KAIGYO) := by
  refine ⟨?_, ?_, rfl⟩
  · show some (fixGo e.2 (e :: t)) = _
    simp only [fixGo, fixGo_eq_chainIns]
  · revert a b
    decide

/-- C4: classification is a total function into the six categories,
computed by first-match evaluation of the specification's ordered rule
list Slugline, Dialogue, Transition, Heading, Blank with Action as the
fallback; the classifier maps every line independently and preserves the
number of lines. -/
theorem c4_total_ordered_rules (lines : List Str) (l : Str) :
    add_attribute_to_line lines = lines.map (applyRules specRules)
    ∧ tagLine l = applyRules specRules l
    ∧ (add_attribute_to_line lines).length = lines.length := by
  have h : ∀ s : Str, tagLine s = applyRules specRules s := by
    intro s
    simp [tagLine, specRules, applyRules, List.isEmpty_iff]
  refine ⟨?_, h l, by simp [add_attribute_to_line]⟩
  simp only [add_attribute_to_line]
  exact List.map_congr_left fun s _ => h s

/-- C5: the stored text equals the input line unchanged for every
category except Transition, where it is the line with exactly one
fullwidth space prepended; the classifier applies this to every line. -/
theorem c5_text_preserved (lines : List Str) (l : Str) :
    add_attribute_to_line lines = lines.map tagLine
    ∧ (tagLine l).1 = (if (tagLine l).2 = BUNRITAI then '　' :: l else l) := by
  refine ⟨rfl, ?_⟩
  unfold tagLine
  split_ifs <;> simp_all

/-- C6: normalization never removes content: the flagged run maps onto
the output, filtering out the flagged synthetic entries gives back
exactly the original sequence in order, the output is at least as long
as the input, and every synthetic entry is the empty-string Blank. -/
theorem c6_content_preserved (e : Str × LineAttribute)
    (t : List (Str × LineAttribute)) :
    fix_line_breaks (e :: t) = some ((fixGoF e.2 (e :: t)).map Prod.fst)
    ∧ ((fixGoF e.2 (e :: t)).filter (fun x => !x.2)).map Prod.fst = e :: t
    ∧ (e :: t).length ≤ ((fixGoF e.2 (e :: t)).map Prod.fst).length
    ∧ (fixGoF e.2 (e :: t)).all
        (fun x => !x.2 || decide (x.1 = blankTL)) = true := by
  refine ⟨?_, fixGoF_orig _ _, ?_, fixGoF_synth _ _⟩
  · show some (fixGo e.2 (e :: t)) = _
    rw [fixGoF_fst]
  · rw [fixGoF_fst]
    exact fixGo_le_length _ _

/-- C7: in every sequence the normalizer outputs, no two adjacent
entries carry two different categories that are both non-Blank: every
adjacent pair of categories is equal or has a Blank on at least one
side. -/
theorem c7_separation (l out : List (Str × LineAttribute))
    (h : fix_line_breaks l = some out) :
    List.Chain' catAdjOK (out.map Prod.snd) := by
  cases l with
  | nil => simp [fix_line_breaks] at h
  | cons e t =>
    have hout : out = fixGo e.2 (e :: t) := by
      simpa [fix_line_breaks] using h.symm
    subst hout
    exact chain'_of_chain (fixGo_chain (e :: t) e.2)

/-- C7 witness: the separation theorem applied to the concrete
single-entry input `[("a", TOGAKI)]`. -/
theorem c7_separation_witness :
    List.Chain' catAdjOK
      (([(['a'], TOGAKI)] : List (Str × LineAttribute)).map Prod.snd) :=
  c7_separation [(['a'], TOGAKI)] [(['a'], TOGAKI)] rfl

/-- C10: the Break Normalizer is not total: on the empty sequence the
initial read of the first entry's category fails (modelled as `none`),
and the pipeline as called by `ktf` feeds the classifier output to the
normalizer with no guard, so an input file with no lines fails after
classification instead of producing an empty document. -/
theorem c10_empty_input_fails :
    fix_line_breaks ([] : List (Str × LineAttribute)) = none
    ∧ ktfCore [] = none :=
  ⟨rfl, rfl⟩

/-- C2 (counterexample): the line `A「B」` has a character before the
opening quote glyph and so, per the claim, must not be Dialogue; yet the
classifier assigns SERIFU (Dialogue) to it, the Slugline rule not having
matched, because the Dialogue pattern permits an arbitrary run of
characters before the opening quote. -/
theorem c2_counterexample :
    (tagLine ['A', '「', 'B', '」']).2 = SERIFU
    ∧ hashira ['A', '「', 'B', '」'] = false
    ∧ (['A', '「', 'B', '」'] : Str).head? ≠ some '「' := by
  decide

/-- C2 (amended): for a trimmed line (no newline characters), the
classifier assigns Dialogue exactly when the Slugline rule did not match
and the line ends with the closing quote glyph immediately preceded by a
non-empty run of characters that follows an opening quote glyph
somewhere in the line; an arbitrary run of characters before the opening
quote glyph is permitted. -/
theorem c2_amended (s : Str) (h : '\n' ∉ s) :
    (tagLine s).2 = SERIFU ↔
      (hashira s = false
        ∧ ∃ p m : Str, s = p ++ '「' :: (m ++ ['」']) ∧ m ≠ []) := by
  rw [tagLine_serifu_iff]
  have hd : serifu s = serifuBody s := by
    rw [serifu, dropTrailingNl_eq_self s h]
  rw [hd]
  exact and_congr_right fun _ => serifuBody_iff s h

/-- C2 witness: the amended equivalence evaluated at the concrete line
`A「B」`. -/
theorem c2_amended_witness :
    '\n' ∉ (['A', '「', 'B', '」'] : Str)
    ∧ ((tagLine ['A', '「', 'B', '」']).2 = SERIFU ↔
        (hashira ['A', '「', 'B', '」'] = false
          ∧ ∃ p m : Str,
              (['A', '「', 'B', '」'] : Str) = p ++ '「' :: (m ++ ['」'])
              ∧ m ≠ [])) :=
  ⟨by decide, c2_amended ['A', '「', 'B', '」'] (by decide)⟩

/-- C8: the Preprocessor strips every line in place: it maps `pyStrip`
over the sequence preserving length and order, each stripped line occurs
inside the original between all-whitespace margins, the stripped line
neither starts nor ends with whitespace, a line strips to empty exactly
when it is all whitespace, the whitespace class includes ASCII space,
tab, newline, carriage return and the fullwidth space U+3000, and the
empty sequence maps to the empty sequence. -/
theorem c8_trim (lines : List Str) (s : Str) :
    text_preprocessor lines = lines.map pyStrip
    ∧ (text_preprocessor lines).length = lines.length
    ∧ (∃ p q : Str, s = p ++ pyStrip s ++ q
        ∧ p.all isPyWhitespace = true ∧ q.all isPyWhitespace = true)
    ∧ ((pyStrip s).take 1).all (fun c => !(isPyWhitespace c)) = true
    ∧ ((pyStrip s).reverse.take 1).all (fun c => !(isPyWhitespace c)) = true
    ∧ (pyStrip s = [] ↔ s.all isPyWhitespace = true)
    ∧ isPyWhitespace ' ' = true ∧ isPyWhitespace '\t' = true
    ∧ isPyWhitespace '\n' = true ∧ isPyWhitespace '\r' = true
    ∧ isPyWhitespace '　' = true
    ∧ text_preprocessor ([] : List Str) = [] :=
  ⟨rfl, by simp [text_preprocessor], pyStrip_decomp s, pyStrip_head_not_ws s,
   pyStrip_last_not_ws s, pyStrip_eq_nil_iff s,
   by decide, by decide, by decide, by decide, by decide, rfl⟩

/-- C9: the Preprocessor is idempotent: stripping already-stripped lines
changes nothing. -/
theorem c9_idempotent (lines : List Str) :
    text_preprocessor (text_preprocessor lines) = text_preprocessor lines := by
  simp only [text_preprocessor, List.map_map]
  exact List.map_congr_left fun s _ => by
    simpa [Function.comp] using pyStrip_idem s
